import Mathlib

/-!
# A verification model of fuzzcheck's integer mutators, recursive mutators,
# AndPool, and artifact-file selection

Shallow embedding of:
* `src/fuzzcheck_mutators/src/integer.rs` (the `impl_unsigned_mutator!` /
  `impl_signed_mutator!` macros and their helpers),
* `src/fuzzcheck/src/mutators/recursive.rs` (`RecurToMutator`, `RecursiveMutator`),
* `src/fuzzcheck/src/and_sensor_and_pool.rs` (`AndPool`),
* `simplest_input_file` from `src/cargo-fuzzcheck/src/lib.rs`.

Machine integers are modelled as `Nat` with explicit `% 2^w` wrapping;
`f64` complexities are modelled as exact rationals (`Rat`) — the only
complexity values the integer mutators produce are the constant `8.0`,
which is exact in `f64`. Rust panics (`unwrap` on `None`) are modelled as
`Except.error`. Sources of randomness (`fastrand`) are passed in as
explicit parameters holding the value the rng returned.
-/

/-! ## Integer mutators: `src/fuzzcheck_mutators/src/integer.rs`

`u8` two's-complement wrapping arithmetic (`wrapping_add`, `wrapping_sub`)
is arithmetic modulo `W = 2^8`; operands are kept `< W` throughout. -/

def wrapping_add (W a b : Nat) : Nat := (a + b) % W

def wrapping_sub (W a b : Nat) : Nat := (a + (W - b % W)) % W

/-- `binary_search_arbitrary` terminates because `step` strictly decreases at
each recursive call; Lean's well-founded recursion does not reduce inside the
kernel, so the recursion is driven by a `fuel` counter (any `fuel > step`
gives the same result, see `binary_search_arbitrary_eq` which re-establishes
the source's recurrence). -/
def binary_search_arbitrary_fuel : Nat → Nat → Nat → Nat → Nat
  | 0, _, _, _ => 0
  | fuel + 1, low, high, step =>
    let next := wrapping_add 256 low (wrapping_sub 256 high low / 2)
    if wrapping_add 256 low 1 = high then
      if step % 2 = 0 then high else low
    else if step = 0 then
      next
    else if step % 2 = 1 then
      binary_search_arbitrary_fuel fuel (wrapping_add 256 next 1) high (step / 2)
    else
      binary_search_arbitrary_fuel fuel low (wrapping_sub 256 next 1) ((step - 1) / 2)

/-- Model of `fn binary_search_arbitrary(low: u8, high: u8, step: u64) -> u8`. -/
def binary_search_arbitrary (low high step : Nat) : Nat :=
  binary_search_arbitrary_fuel (step + 1) low high step

/-- The `shuffled_integers: [u8; 256]` table every integer mutator builds in
`Default::default()`: entry `i` is `binary_search_arbitrary(0, u8::MAX, i as u64)`. -/
def shuffled_integers (i : Nat) : Nat := binary_search_arbitrary 0 255 i

/-- Model of `fn uniform_permutation(&self, step: u64) -> $name`.
`GRANULARITY = 8` and `STEP_MASK = 255` (the source computes them from
`256u64.leading_zeros()`); `size` is the bit width of the integer type.
The Rust `for i in 1..(size / 8)` loop is the fold over `List.range' 1 (size / 8 - 1)`
carrying the pair `(result, prev)`. -/
def uniform_permutation (size step : Nat) : Nat :=
  let step_i := step &&& 255
  let prev := shuffled_integers step_i
  let result := prev <<< (size - 8)
  ((List.range' 1 (size / 8 - 1)).foldl
    (fun (acc : Nat × Nat) i =>
      let step_i := ((step >>> (i * 8)) ^^^ acc.2) &&& 255
      let prev := shuffled_integers step_i
      (acc.1 ||| prev <<< (size - (i + 1) * 8), prev))
    (result, prev)).1

/-- `fn cache_from_value` of the integer mutators: the cache is `()`. -/
def cache_from_value (_value : Nat) : Unit := ()

/-- `fn initial_step_from_value` of the integer mutators: always `0`. -/
def initial_step_from_value (_value : Nat) : Nat := 0

/-- `fn complexity` of the integer mutators: the constant `8.0`. -/
def complexity (_value : Nat) (_cache : Unit) : Rat := 8

/-- `fn min_complexity`: the constant `8.0`. -/
def min_complexity : Rat := 8

/-- `fn max_complexity`: the constant `8.0`. -/
def max_complexity : Rat := 8

/-- `u64::saturating_add`. -/
def u64_saturating_add (a b : Nat) : Nat := min (a + b) (2 ^ 64 - 1)

/-- Model of `fn ordered_arbitrary(&mut self, step, _max_cplx)` of the
unsigned mutators. `MAX` is `<$name>::MAX as u64`. The state-passing result
is `(returned option, new step)`; `*step += 1` is `u64` arithmetic, hence the
`% 2^64` (Rust release builds wrap on overflow). The `_max_cplx` argument is
ignored by the source. -/
def ordered_arbitrary (MAX size : Nat) (step : Nat) (_max_cplx : Rat) : Option Nat × Nat :=
  if step > MAX then
    (none, step)
  else
    (some (uniform_permutation size step), (step + 1) % 2 ^ 64)

/-- Model of `fn random_arbitrary(&mut self, _max_cplx)`: `r` is the value
`self.rng.u64(..)` returned. -/
def random_arbitrary (size : Nat) (r : Nat) (_max_cplx : Rat) : Nat × Unit :=
  (uniform_permutation size (r % 2 ^ 64), ())

/-- Model of `fn ordered_mutate(&mut self, value, _cache, step, _max_cplx)` of
the unsigned mutators. `thr` is `10u64.saturating_add(<$name>::MAX as u64)`,
`W = 2^size`. Returns `(returned option, new value, new step)`; the returned
`UnmutateToken` is the old value. `(tmp_step + 2) as $name` is the truncating
cast `% W`; `wrapping_add`/`wrapping_sub` are mod-`W` arithmetic;
`step.wrapping_add(1)` is mod-`2^64`. -/
def ordered_mutate (thr W size : Nat) (value step : Nat) (_max_cplx : Rat) :
    Option Nat × Nat × Nat :=
  if step > thr then
    (none, value, step)
  else
    let token := value
    let value' :=
      if step < 8 then
        let nudge := (step + 2) % W
        if nudge % 2 = 0 then
          wrapping_add W value (nudge / 2)
        else
          wrapping_sub W value (nudge / 2)
      else
        uniform_permutation size (step - 7)
    (some token, value', (step + 1) % 2 ^ 64)

/-- Model of the signed `fn ordered_mutate` (`impl_signed_mutator!`): the same
body but with **no** exhaustion check on `step`. Signed values are modelled by
their two's-complement bit patterns in `[0, W)`: `wrapping_add`/`wrapping_sub`
on `iN` coincide with mod-`W` arithmetic on patterns, the `as $name` casts
preserve patterns, and `nudge` lies in `[2, 9]`, where `iN` `%`/`/` agree with
the `Nat` operations. -/
def ordered_mutate_signed (W size : Nat) (value step : Nat) (_max_cplx : Rat) :
    Option Nat × Nat × Nat :=
  let token := value
  let value' :=
    if step < 8 then
      let nudge := (step + 2) % W
      if nudge % 2 = 0 then
        wrapping_add W value (nudge / 2)
      else
        wrapping_sub W value (nudge / 2)
    else
      uniform_permutation size (step - 7)
  (some token, value', (step + 1) % 2 ^ 64)

/-- Model of `fn random_mutate`: `std::mem::replace(value, $rand(..))` where
`r` is the value the rng returned. Result is `(token, new value)`. -/
def random_mutate (W : Nat) (r : Nat) (value : Nat) (_max_cplx : Rat) : Nat × Nat :=
  (value, r % W)

/-- Model of `fn unmutate(&self, value, _cache, t)`: `*value = t`. -/
def unmutate (_value t : Nat) : Nat := t

/-! Per-type instantiations produced by
`impl_unsigned_mutator!(u8, U8Mutator, fastrand::u8, 8)` and friends. -/

def U8Mutator_ordered_arbitrary : Nat → Rat → Option Nat × Nat :=
  ordered_arbitrary (2 ^ 8 - 1) 8

def U16Mutator_ordered_arbitrary : Nat → Rat → Option Nat × Nat :=
  ordered_arbitrary (2 ^ 16 - 1) 16

def U32Mutator_ordered_arbitrary : Nat → Rat → Option Nat × Nat :=
  ordered_arbitrary (2 ^ 32 - 1) 32

def U64Mutator_ordered_arbitrary : Nat → Rat → Option Nat × Nat :=
  ordered_arbitrary (2 ^ 64 - 1) 64

def U8Mutator_ordered_mutate : Nat → Nat → Rat → Option Nat × Nat × Nat :=
  ordered_mutate (u64_saturating_add 10 (2 ^ 8 - 1)) (2 ^ 8) 8

def U16Mutator_ordered_mutate : Nat → Nat → Rat → Option Nat × Nat × Nat :=
  ordered_mutate (u64_saturating_add 10 (2 ^ 16 - 1)) (2 ^ 16) 16

def U32Mutator_ordered_mutate : Nat → Nat → Rat → Option Nat × Nat × Nat :=
  ordered_mutate (u64_saturating_add 10 (2 ^ 32 - 1)) (2 ^ 32) 32

def U64Mutator_ordered_mutate : Nat → Nat → Rat → Option Nat × Nat × Nat :=
  ordered_mutate (u64_saturating_add 10 (2 ^ 64 - 1)) (2 ^ 64) 64

def I8Mutator_ordered_mutate : Nat → Nat → Rat → Option Nat × Nat × Nat :=
  ordered_mutate_signed (2 ^ 8) 8

def I16Mutator_ordered_mutate : Nat → Nat → Rat → Option Nat × Nat × Nat :=
  ordered_mutate_signed (2 ^ 16) 16

def I32Mutator_ordered_mutate : Nat → Nat → Rat → Option Nat × Nat × Nat :=
  ordered_mutate_signed (2 ^ 32) 32

def I64Mutator_ordered_mutate : Nat → Nat → Rat → Option Nat × Nat × Nat :=
  ordered_mutate_signed (2 ^ 64) 64

/-! Iteration harnesses: repeated calls threading the mutator state, recording
the `Option` each call returned. -/

/-- Outputs of `n` successive `ordered_arbitrary` calls starting from
arbitrary-step `s`. -/
def runArb (f : Nat → Rat → Option Nat × Nat) (mc : Rat) : Nat → Nat → List (Option Nat)
  | _, 0 => []
  | s, n + 1 => (f s mc).1 :: runArb f mc (f s mc).2 n

/-- Arbitrary-step after `n` successive `ordered_arbitrary` calls. -/
def runArbState (f : Nat → Rat → Option Nat × Nat) (mc : Rat) : Nat → Nat → Nat
  | s, 0 => s
  | s, n + 1 => runArbState f mc (f s mc).2 n

/-- Outputs of `n` successive `ordered_mutate` calls threading `(value, step)`. -/
def runMut (f : Nat → Nat → Rat → Option Nat × Nat × Nat) (mc : Rat) :
    Nat → Nat → Nat → List (Option Nat)
  | _, _, 0 => []
  | v, s, n + 1 => (f v s mc).1 :: runMut f mc (f v s mc).2.1 (f v s mc).2.2 n

/-- Mutation-step after `n` successive `ordered_mutate` calls. -/
def runMutState (f : Nat → Nat → Rat → Option Nat × Nat × Nat) (mc : Rat) :
    Nat → Nat → Nat → Nat
  | _, s, 0 => s
  | v, s, n + 1 => runMutState f mc (f v s mc).2.1 (f v s mc).2.2 n

/-- Value after `n` successive `ordered_mutate` calls. -/
def runMutValue (f : Nat → Nat → Rat → Option Nat × Nat × Nat) (mc : Rat) :
    Nat → Nat → Nat → Nat
  | v, _, 0 => v
  | v, s, n + 1 => runMutValue f mc (f v s mc).2.1 (f v s mc).2.2 n

/-- The driver loop of testable property 5: each `ordered_mutate` call starts
from the value the previous `unmutate` restored; the list collects the mutated
values. -/
def u8NudgeRun : Nat → Nat → Nat → List Nat
  | _, _, 0 => []
  | v, s, n + 1 =>
    match U8Mutator_ordered_mutate v s 8 with
    | (some t, v', s') => v' :: u8NudgeRun (unmutate v' t) s' n
    | (none, _, _) => []

/-! Byte-level analysis of `uniform_permutation` (not from the source: a
derived closed form used to prove that the function permutes `[0, 2^size)`,
related to the source model by `uniform_permutation_eq_upAssemble`). -/

/-- Byte `i` of `uniform_permutation size step` (byte `0` is the most
significant one). -/
def upByte (step : Nat) : Nat → Nat
  | 0 => shuffled_integers (step % 256)
  | i + 1 => shuffled_integers (((step >>> (8 * (i + 1))) ^^^ upByte step i) % 256)

/-- Big-endian assembly of the first `n` bytes. -/
def upAssemble (step : Nat) : Nat → Nat
  | 0 => 0
  | n + 1 => upAssemble step n * 256 + upByte step n

/-! ## Recursive mutators: `src/fuzzcheck/src/mutators/recursive.rs`

An inner mutator `M: Mutator<T>` is modelled as a bundle of pure functions;
`&mut` arguments become state-passing (the function returns the new value of
every `&mut` argument alongside the Rust return value). `F` is the type of
complexities (`f64` in the source). `recursing_part` is modelled at
`V = T` (the instantiation `recursing_part::<T, Self>` that
`RecursiveMutator` uses): it returns the subpart it found, if any, and the
advanced cursor. -/

structure Mutator (T C MS AS RPI UT F : Type) where
  default_arbitrary_step : AS
  validate_value : T → Option C
  default_mutation_step : T → C → MS
  min_complexity : F
  complexity : T → C → F
  ordered_arbitrary : AS → F → Option (T × F) × AS
  random_arbitrary : F → T × F
  ordered_mutate : T → C → MS → F → Option (UT × F) × T × C × MS
  random_mutate : T → C → F → (UT × F) × T × C
  unmutate : T → C → UT → T × C
  default_recursing_part_index : T → C → RPI
  recursing_part : T → RPI → Option T × RPI

/-- `enum RecursingArbitraryStep<AS>`. -/
inductive RecursingArbitraryStep (AS : Type) where
  | Default
  | Initialized (inner_step : AS)

/-- `struct RecursiveMutatorMutationStep<MS, RPI>`. -/
structure RecursiveMutatorMutationStep (MS RPI : Type) where
  recursing_part_index : Option RPI
  mutation_step : MS

/-- `enum RecursiveMutatorUnmutateToken<T, UnmutateToken>`. -/
inductive RecursiveMutatorUnmutateToken (T UT : Type) where
  | Replace (x : T)
  | Token (t : UT)

/-! `RecurToMutator<M>` holds `reference: Weak<M>`. Each operation calls
`self.reference.upgrade()` afresh; the model takes the outcome of that
upgrade as an `Option (Mutator ...)` argument (`none` = the
`RecursiveMutator` has been dropped and the weak reference is dead).
An operation that calls `.unwrap()` on the upgrade is modelled in
`Except String`, where `.error` is the `unwrap` panic. -/

section RecurTo

variable {T C MS AS RPI UT F : Type}

/-- `RecurToMutator::default_arbitrary_step`: total, does not consult the
weak reference. -/
def RecurToMutator.default_arbitrary_step (_ref : Option (Mutator T C MS AS RPI UT F)) :
    RecursingArbitraryStep AS :=
  RecursingArbitraryStep.Default

/-- `RecurToMutator::validate_value`: `self.reference.upgrade().unwrap().validate_value(value)`. -/
def RecurToMutator.validate_value (ref : Option (Mutator T C MS AS RPI UT F)) (value : T) :
    Except String (Option C) :=
  match ref with
  | some m => .ok (m.validate_value value)
  | none => .error "unwrap"

/-- `RecurToMutator::default_mutation_step`: upgrades and unwraps. -/
def RecurToMutator.default_mutation_step (ref : Option (Mutator T C MS AS RPI UT F))
    (value : T) (cache : C) : Except String MS :=
  match ref with
  | some m => .ok (m.default_mutation_step value cache)
  | none => .error "unwrap"

/-- `RecurToMutator::min_complexity`: the one operation that handles a dead
weak reference, returning the hard-coded `1.0`. -/
def RecurToMutator.min_complexity [One F] (ref : Option (Mutator T C MS AS RPI UT F)) : F :=
  match ref with
  | some m => m.min_complexity
  | none => 1

/-- `RecurToMutator::complexity`: upgrades and unwraps. -/
def RecurToMutator.complexity (ref : Option (Mutator T C MS AS RPI UT F))
    (value : T) (cache : C) : Except String F :=
  match ref with
  | some m => .ok (m.complexity value cache)
  | none => .error "unwrap"

/-- `RecurToMutator::ordered_arbitrary`: on a `Default` step it initializes the
inner step (unwrapping the upgrade) and calls itself; on an `Initialized` step
it delegates (unwrapping the upgrade). -/
def RecurToMutator.ordered_arbitrary (ref : Option (Mutator T C MS AS RPI UT F))
    (step : RecursingArbitraryStep AS) (max_cplx : F) :
    Except String (Option (T × F) × RecursingArbitraryStep AS) :=
  match step with
  | RecursingArbitraryStep.Default =>
    match ref with
    | some m =>
      let inner_step := m.default_arbitrary_step
      RecurToMutator.ordered_arbitrary ref (RecursingArbitraryStep.Initialized inner_step) max_cplx
    | none => .error "unwrap"
  | RecursingArbitraryStep.Initialized inner_step =>
    match ref with
    | some m =>
      let (r, inner_step') := m.ordered_arbitrary inner_step max_cplx
      .ok (r, RecursingArbitraryStep.Initialized inner_step')
    | none => .error "unwrap"
termination_by (match step with | RecursingArbitraryStep.Default => 1 | _ => 0)

/-- `RecurToMutator::random_arbitrary`: upgrades and unwraps. -/
def RecurToMutator.random_arbitrary (ref : Option (Mutator T C MS AS RPI UT F))
    (max_cplx : F) : Except String (T × F) :=
  match ref with
  | some m => .ok (m.random_arbitrary max_cplx)
  | none => .error "unwrap"

/-- `RecurToMutator::ordered_mutate`: upgrades and unwraps. -/
def RecurToMutator.ordered_mutate (ref : Option (Mutator T C MS AS RPI UT F))
    (value : T) (cache : C) (step : MS) (max_cplx : F) :
    Except String (Option (UT × F) × T × C × MS) :=
  match ref with
  | some m => .ok (m.ordered_mutate value cache step max_cplx)
  | none => .error "unwrap"

/-- `RecurToMutator::random_mutate`: upgrades and unwraps. -/
def RecurToMutator.random_mutate (ref : Option (Mutator T C MS AS RPI UT F))
    (value : T) (cache : C) (max_cplx : F) : Except String ((UT × F) × T × C) :=
  match ref with
  | some m => .ok (m.random_mutate value cache max_cplx)
  | none => .error "unwrap"

/-- `RecurToMutator::unmutate`: upgrades and unwraps. -/
def RecurToMutator.unmutate (ref : Option (Mutator T C MS AS RPI UT F))
    (value : T) (cache : C) (t : UT) : Except String (T × C) :=
  match ref with
  | some m => .ok (m.unmutate value cache t)
  | none => .error "unwrap"

end RecurTo

/-! `RecursiveMutator<M>` holds `mutator: Rc<M>` — a strong reference, no
upgrade involved. Its `ordered_mutate` calls `self.validate_value(&new).unwrap()`
in the replace-by-recursing-subpart branch, so it is modelled in `Except String`
as well. -/

section RecursiveM

variable {T C MS RPI UT F : Type}

/-- `RecursiveMutator::default_mutation_step`. -/
def RecursiveMutator.default_mutation_step (m : Mutator T C MS AS RPI UT F)
    (value : T) (cache : C) : RecursiveMutatorMutationStep MS RPI :=
  { mutation_step := m.default_mutation_step value cache,
    recursing_part_index := some (m.default_recursing_part_index value cache) }

/-- `RecursiveMutator::ordered_mutate`. While `step.recursing_part_index` is
`Some`, try the replace-whole-by-recursing-subpart move: if a subpart is found,
clone it, validate it (`unwrap`), compute its complexity from the fresh cache,
swap it with the value and return a `Replace` token — the caller's `cache` is
not touched and the fresh cache is dropped. If no subpart is left, set
`recursing_part_index` to `None` and recurse; with `recursing_part_index ==
None`, delegate to the inner mutator's `ordered_mutate` and wrap its token. -/
def RecursiveMutator.ordered_mutate (m : Mutator T C MS AS RPI UT F)
    (value : T) (cache : C) (step : RecursiveMutatorMutationStep MS RPI) (max_cplx : F) :
    Except String (Option (RecursiveMutatorUnmutateToken T UT × F) × T × C ×
      RecursiveMutatorMutationStep MS RPI) :=
  match hrpi : step.recursing_part_index with
  | some recursing_part_index =>
    match m.recursing_part value recursing_part_index with
    | (some new, recursing_part_index') =>
      match m.validate_value new with
      | some fresh_cache =>
        let cplx := m.complexity new fresh_cache
        .ok (some (RecursiveMutatorUnmutateToken.Replace value, cplx), new, cache,
          { recursing_part_index := some recursing_part_index',
            mutation_step := step.mutation_step })
      | none => .error "unwrap"
    | (none, _) =>
      RecursiveMutator.ordered_mutate m value cache
        { recursing_part_index := none, mutation_step := step.mutation_step } max_cplx
  | none =>
    match m.ordered_mutate value cache step.mutation_step max_cplx with
    | (some (t, cplx), value', cache', mutation_step') =>
      .ok (some (RecursiveMutatorUnmutateToken.Token t, cplx), value', cache',
        { recursing_part_index := none, mutation_step := mutation_step' })
    | (none, value', cache', mutation_step') =>
      .ok (none, value', cache',
        { recursing_part_index := none, mutation_step := mutation_step' })
termination_by (match step.recursing_part_index with | some _ => 1 | none => 0)
decreasing_by simp_wf; simp [hrpi]

/-- `RecursiveMutator::random_mutate`: `coin` is the value `self.rng.usize(..100)`
returned. With probability 1/100 (`coin == 0`) it attempts the
replace-by-recursing-subpart move; if that finds no subpart, or on any other
coin, it delegates to the inner mutator's `random_mutate`. -/
def RecursiveMutator.random_mutate (m : Mutator T C MS AS RPI UT F) (coin : Nat)
    (value : T) (cache : C) (max_cplx : F) :
    Except String ((RecursiveMutatorUnmutateToken T UT × F) × T × C) :=
  if coin = 0 then
    let recursing_part_index := m.default_recursing_part_index value cache
    match m.recursing_part value recursing_part_index with
    | (some new, _) =>
      match m.validate_value new with
      | some fresh_cache =>
        let cplx := m.complexity new fresh_cache
        .ok ((RecursiveMutatorUnmutateToken.Replace value, cplx), new, cache)
      | none => .error "unwrap"
    | (none, _) =>
      let ((t, cplx), value', cache') := m.random_mutate value cache max_cplx
      .ok ((RecursiveMutatorUnmutateToken.Token t, cplx), value', cache')
  else
    let ((t, cplx), value', cache') := m.random_mutate value cache max_cplx
    .ok ((RecursiveMutatorUnmutateToken.Token t, cplx), value', cache')

/-- `RecursiveMutator::unmutate`: a `Replace` token restores the saved value
and leaves the cache alone; a `Token` token delegates to the inner mutator. -/
def RecursiveMutator.unmutate (m : Mutator T C MS AS RPI UT F)
    (value : T) (cache : C) (t : RecursiveMutatorUnmutateToken T UT) : T × C :=
  match t with
  | RecursiveMutatorUnmutateToken.Replace x => (x, cache)
  | RecursiveMutatorUnmutateToken.Token t => m.unmutate value cache t

/-- The unmutate-inverse law for an inner mutator (testable property 1 of the
spec, for `ordered_mutate`): whenever `ordered_mutate` returns a token, feeding
the post-states and the token to `unmutate` restores the pre-call value and
cache. -/
def UnmutateInverse (m : Mutator T C MS AS RPI UT F) : Prop :=
  ∀ v c ms mc t cplx v' c' ms',
    m.ordered_mutate v c ms mc = (some (t, cplx), v', c', ms') →
    m.unmutate v' c' t = (v, c)

end RecursiveM

/-! ## `AndPool`: `src/fuzzcheck/src/and_sensor_and_pool.rs` -/

/-- `enum Either<L, R>` (`src/fuzzcheck/src/mutators/either.rs`). -/
inductive Either (L R : Type) where
  | Left (l : L)
  | Right (r : R)
deriving DecidableEq

/-- `CorpusDelta { path, add, remove }` (`sensor_and_pool.rs`). -/
structure CorpusDelta (T I : Type) where
  path : String
  add : Option (T × I)
  remove : List I
deriving DecidableEq

/-- `AndStats { stats1, stats2 }`. -/
structure AndStats (S1 S2 : Type) where
  stats1 : S1
  stats2 : S2
deriving DecidableEq

/-- A sub-pool of an `AndPool`, modelled by the operations `AndPool::process`
and `AndPool::get_random_index` use: `get`, `stats`, and `process`. `process`
takes the pool state, the sensor, the input view `Either<Index, &TestCase>`,
the `clone_input` closure and the complexity, and returns the list of
`(CorpusDelta, Stats)` events it hands to its event handler, in order,
together with its new state. -/
structure Pool (St Sen TC I Stats : Type) where
  get : St → I → TC
  stats : St → Stats
  process : St → Sen → Either I TC → (TC → TC) → Rat → List (CorpusDelta TC I × Stats) × St

/-- `AndPool::lift_corpus_delta_1`: wrap every index of a `P1` delta in
`Either::Left`. -/
def lift_corpus_delta_1 {TC I1 I2 : Type} (corpus_delta : CorpusDelta TC I1) :
    CorpusDelta TC (Either I1 I2) :=
  { path := corpus_delta.path,
    add := corpus_delta.add.map (fun ci => (ci.1, Either.Left ci.2)),
    remove := corpus_delta.remove.map Either.Left }

/-- `AndPool::lift_corpus_delta_2`: wrap every index of a `P2` delta in
`Either::Right`. -/
def lift_corpus_delta_2 {TC I1 I2 : Type} (corpus_delta : CorpusDelta TC I2) :
    CorpusDelta TC (Either I1 I2) :=
  { path := corpus_delta.path,
    add := corpus_delta.add.map (fun ci => (ci.1, Either.Right ci.2)),
    remove := corpus_delta.remove.map Either.Right }

/-- `AndPool::get_random_index`: `coin` is the value `self.rng.usize(0..100)`
returned; `g1`/`g2` are the outcomes of the sub-pools' `get_random_index`. -/
def AndPool.get_random_index {I1 I2 : Type} (percent_choose_first : Nat) (coin : Nat)
    (g1 : Option I1) (g2 : Option I2) : Option (Either I1 I2) :=
  if coin < percent_choose_first then
    match g1.map Either.Left with
    | some idx => some idx
    | none => g2.map Either.Right
  else
    match g2.map Either.Right with
    | some idx => some idx
    | none => g1.map Either.Left

/-- `AndPool::process` (`impl CompatibleWithSensor<AndSensor<S1, S2>> for
AndPool<P1, P2>`). First block: read `stats2` from the current state, build
`p1`'s view of the input (dereferencing a `Right` index through `p2`), run
`p1.process`, lifting every emitted delta with `lift_corpus_delta_1` and
pairing it with `AndStats { stats1, stats2 }`. Second block: the same with the
roles swapped, against the state `p1.process` left behind. The model collects
the events passed to `event_handler`, in order; the event handler's
`Result`-based I/O short-circuiting is not modelled (handlers are total). -/
def AndPool.process {St1 St2 Sen1 Sen2 TC I1 I2 S1 S2 : Type}
    (P1 : Pool St1 Sen1 TC I1 S1) (P2 : Pool St2 Sen2 TC I2 S2)
    (p1 : St1) (p2 : St2) (sen1 : Sen1) (sen2 : Sen2)
    (get_input_ref : Either (Either I1 I2) TC) (clone_input : TC → TC) (complexity : Rat) :
    List (CorpusDelta TC (Either I1 I2) × AndStats S1 S2) × St1 × St2 :=
  let stats2 := P2.stats p2
  let get_input_1 : Either I1 TC :=
    match get_input_ref with
    | Either.Left (Either.Right idx) => Either.Right (P2.get p2 idx)
    | Either.Left (Either.Left idx) => Either.Left idx
    | Either.Right input_ref => Either.Right input_ref
  let r1 := P1.process p1 sen1 get_input_1 clone_input complexity
  let events1 := r1.1.map (fun ds =>
    (lift_corpus_delta_1 ds.1, AndStats.mk ds.2 stats2))
  let p1' := r1.2
  let stats1 := P1.stats p1'
  let get_input_2 : Either I2 TC :=
    match get_input_ref with
    | Either.Left (Either.Left idx) => Either.Right (P1.get p1' idx)
    | Either.Left (Either.Right idx) => Either.Left idx
    | Either.Right input_ref => Either.Right input_ref
  let r2 := P2.process p2 sen2 get_input_2 clone_input complexity
  let events2 := r2.1.map (fun ds =>
    (lift_corpus_delta_2 ds.1, AndStats.mk stats1 ds.2))
  (events1 ++ events2, p1', r2.2)

/-! ## `simplest_input_file`: `src/cargo-fuzzcheck/src/lib.rs` -/

/-- `path.file_stem()?.to_str()?.splitn(2, "--")`: at most two components,
split at the first occurrence of `"--"`. -/
def splitn_two (s : String) : List String :=
  match s.splitOn "--" with
  | [x] => [x]
  | x :: rest => [x, String.intercalate "--" rest]
  | [] => []

/-- `Iterator::min_by(compare)`: `None` on an empty iterator; on ties the
earlier element is kept (`cmp::min_by(acc, y, compare)` keeps `acc` unless
`compare(&y, &acc) == Less`). -/
def min_by {α : Type} (compare : α → α → Ordering) (l : List α) : Option α :=
  l.foldl
    (fun acc y =>
      match acc with
      | none => some y
      | some x => if compare y x = Ordering.lt then some y else some x)
    none

/-- The `files_with_complexity` iterator of `simplest_input_file`: the
folder's directory entries are `(path, file_stem)` pairs (`none` for an entry
whose `file_stem()?` / `to_str()?` fails); `parse` models
`str::parse::<f64>` into a complexity type `F`. An entry is kept when its
stem splits into exactly two components at the first `"--"` and the first
component parses. -/
def files_with_complexity {P F : Type} (parse : String → Option F)
    (entries : List (P × Option String)) : List (P × F) :=
  entries.filterMap (fun e =>
    match e.2 with
    | none => none
    | some stem =>
      let name_components := splitn_two stem
      if name_components.length = 2 then
        (parse (name_components.headD "")).map (fun cplx => (e.1, cplx))
      else
        none)

/-- Model of `fn simplest_input_file(folder: &Path) -> Option<PathBuf>`.
`pcmp` models `PartialOrd::partial_cmp` on `F`, and an incomparable pair
falls back to `Ordering::Equal` (`unwrap_or(Ordering::Equal)`). -/
def simplest_input_file {P F : Type} (pcmp : F → F → Option Ordering)
    (parse : String → Option F) (entries : List (P × Option String)) : Option P :=
  (min_by (fun x y => (pcmp x.2 y.2).getD Ordering.eq)
    (files_with_complexity parse entries)).map (fun x => x.1)

/-! ## Theorems -/

/-! ### The fuel recursion of `binary_search_arbitrary` satisfies the source's
recurrence -/

theorem binary_search_arbitrary_fuel_congr :
    ∀ fuel fuel' low high step, step < fuel → step < fuel' →
      binary_search_arbitrary_fuel fuel low high step =
        binary_search_arbitrary_fuel fuel' low high step := by
  intro fuel
  induction fuel with
  | zero => omega
  | succ f ih =>
    intro fuel' low high step hf hf'
    match fuel', hf' with
    | f' + 1, hf' =>
      simp only [binary_search_arbitrary_fuel]
      split
      · rfl
      · split
        · rfl
        · split
          · apply ih <;> omega
          · apply ih <;> omega

/-- The source's recurrence for `binary_search_arbitrary`, recovered from the
fuel-driven definition. -/
theorem binary_search_arbitrary_eq (low high step : Nat) :
    binary_search_arbitrary low high step =
      (let next := wrapping_add 256 low (wrapping_sub 256 high low / 2)
       if wrapping_add 256 low 1 = high then
         if step % 2 = 0 then high else low
       else if step = 0 then
         next
       else if step % 2 = 1 then
         binary_search_arbitrary (wrapping_add 256 next 1) high (step / 2)
       else
         binary_search_arbitrary low (wrapping_sub 256 next 1) ((step - 1) / 2)) := by
  show binary_search_arbitrary_fuel (step + 1) low high step = _
  conv_lhs => simp only [binary_search_arbitrary_fuel]
  by_cases h1 : wrapping_add 256 low 1 = high
  · simp [h1]
  · by_cases h2 : step = 0
    · simp [h1, h2]
    · by_cases h3 : step % 2 = 1
      · simp only [h1, h2, h3, if_true, if_false, ite_true, ite_false, if_neg, if_pos]
        apply binary_search_arbitrary_fuel_congr <;> omega
      · simp only [h1, h2, h3, if_true, if_false, ite_true, ite_false, if_neg, if_pos]
        apply binary_search_arbitrary_fuel_congr <;> omega

/-! ### Generic facts about iterated `ordered_mutate` calls -/

theorem ordered_mutate_stuck (thr W size : Nat) (mc : Rat) (v s : Nat) (h : thr < s) :
    ordered_mutate thr W size v s mc = (none, v, s) := by
  simp [ordered_mutate, h]

theorem runMut_exhausted {thr W size : Nat} {mc : Rat} :
    ∀ (n v s : Nat), thr < s →
      runMut (ordered_mutate thr W size) mc v s n = List.replicate n none := by
  intro n
  induction n with
  | zero => intro v s _; rfl
  | succ n ih =>
    intro v s h
    simp [runMut, ordered_mutate_stuck thr W size mc v s h, List.replicate, ih v s h]

theorem runMut_all_isSome {thr W size : Nat} {mc : Rat} :
    ∀ (n v s : Nat), s + n ≤ thr + 1 → thr + 2 ≤ 2 ^ 64 →
      (runMut (ordered_mutate thr W size) mc v s n).all Option.isSome = true := by
  intro n
  induction n with
  | zero => intro v s _ _; rfl
  | succ n ih =>
    intro v s hn hthr
    have hs : ¬ s > thr := by omega
    have hw : (s + 1) % 2 ^ 64 = s + 1 := Nat.mod_eq_of_lt (by omega)
    simp only [runMut, ordered_mutate, if_neg hs, hw, List.all_cons, Option.isSome_some,
      Bool.true_and]
    exact ih _ (s + 1) (by omega) hthr

theorem runMutState_formula {thr W size : Nat} {mc : Rat} :
    ∀ (n v s : Nat), s ≤ thr + 1 → thr + 2 ≤ 2 ^ 64 →
      runMutState (ordered_mutate thr W size) mc v s n = min (s + n) (thr + 1) := by
  intro n
  induction n with
  | zero => intro v s hs _; simp [runMutState]; omega
  | succ n ih =>
    intro v s hs hthr
    by_cases h : thr < s
    · have hstuck := ordered_mutate_stuck thr W size mc v s h
      simp only [runMutState, hstuck]
      rw [ih v s hs hthr]
      omega
    · have hw : (s + 1) % 2 ^ 64 = s + 1 := Nat.mod_eq_of_lt (by omega)
      simp only [runMutState, ordered_mutate, if_neg (by omega : ¬ s > thr), hw]
      rw [ih _ (s + 1) (by omega) hthr]
      omega

theorem runMut_add (f : Nat → Nat → Rat → Option Nat × Nat × Nat) (mc : Rat) :
    ∀ (a b v s : Nat),
      runMut f mc v s (a + b) =
        runMut f mc v s a ++
          runMut f mc (runMutValue f mc v s a) (runMutState f mc v s a) b := by
  intro a
  induction a with
  | zero => intro b v s; simp only [Nat.zero_add]; rfl
  | succ a ih =>
    intro b v s
    have h1 : a + 1 + b = (a + b) + 1 := by omega
    rw [h1]
    simp only [runMut, runMutValue, runMutState, List.cons_append]
    rw [ih]

/-- Token-returning calls of `RecursiveMutator::ordered_mutate` in the state
where the recursing-part cursor is already exhausted (`recursing_part_index =
None`) are inverted by `unmutate`, provided the inner mutator's own law holds. -/
theorem recursive_ordered_mutate_none_case
    {T C MS AS RPI UT F : Type} (m : Mutator T C MS AS RPI UT F)
    (hinv : UnmutateInverse m) :
    ∀ (v : T) (c : C) (ms : MS) (mc : F) (tok : RecursiveMutatorUnmutateToken T UT)
      (cplx : F) (v' : T) (c' : C) (step' : RecursiveMutatorMutationStep MS RPI),
      RecursiveMutator.ordered_mutate m v c
          { recursing_part_index := none, mutation_step := ms } mc =
        .ok (some (tok, cplx), v', c', step') →
      RecursiveMutator.unmutate m v' c' tok = (v, c) := by
  intro v c ms mc tok cplx v' c' step' h
  unfold RecursiveMutator.ordered_mutate at h
  rcases hom : m.ordered_mutate v c ms mc with ⟨topt, v2, c2, ms2⟩
  rcases topt with _ | ⟨t, cp⟩ <;> rw [hom] at h <;> simp at h
  obtain ⟨⟨htok, _⟩, hv, hc, _⟩ := h
  subst htok hv hc
  simpa [RecursiveMutator.unmutate] using hinv v c ms mc t cp v2 c2 ms2 hom

/-- **C1.** Unmutate is an exact inverse of mutation: for every integer
mutator (the unsigned and the signed `ordered_mutate` models, for every
threshold/width instantiation, hence for u8/u16/u32/u64 and i8/i16/i64/i32),
whenever `ordered_mutate` returns a token, `unmutate` applied to the mutated
value and the token restores the pre-call value (the cache is `()` and is
never touched); and for `RecursiveMutator`, assuming the inner mutator
satisfies the same law, a token-returning `ordered_mutate` is inverted by
`unmutate` on both value and cache. The third conjunct exhibits a concrete
non-vacuous instance (u8, value 100, step 0). -/
theorem unmutate_inverts_ordered_mutate :
    (∀ (thr W size v s : Nat) (mc : Rat) (t v' s' : Nat),
        ordered_mutate thr W size v s mc = (some t, v', s') → unmutate v' t = v)
    ∧ (∀ (W size v s : Nat) (mc : Rat) (t v' s' : Nat),
        ordered_mutate_signed W size v s mc = (some t, v', s') → unmutate v' t = v)
    ∧ (U8Mutator_ordered_mutate 100 0 8 = (some 100, 101, 1) ∧ unmutate 101 100 = 100)
    ∧ (∀ (T C MS AS RPI UT F : Type) (m : Mutator T C MS AS RPI UT F),
        UnmutateInverse m →
        ∀ (v : T) (c : C) (step : RecursiveMutatorMutationStep MS RPI) (mc : F)
          (tok : RecursiveMutatorUnmutateToken T UT) (cplx : F) (v' : T) (c' : C)
          (step' : RecursiveMutatorMutationStep MS RPI),
          RecursiveMutator.ordered_mutate m v c step mc =
            .ok (some (tok, cplx), v', c', step') →
          RecursiveMutator.unmutate m v' c' tok = (v, c)) := by
  refine ⟨?_, ?_, ⟨by decide, rfl⟩, ?_⟩
  · intro thr W size v s mc t v' s' h
    by_cases hs : s > thr
    · simp [ordered_mutate, hs] at h
    · simp only [ordered_mutate, if_neg hs, Prod.mk.injEq, Option.some.injEq] at h
      exact h.1.symm
  · intro W size v s mc t v' s' h
    simp only [ordered_mutate_signed, Prod.mk.injEq, Option.some.injEq] at h
    exact h.1.symm
  · intro T C MS AS RPI UT F m hinv v c step mc tok cplx v' c' step' h
    obtain ⟨rpiOpt, ms⟩ := step
    cases rpiOpt with
    | none => exact recursive_ordered_mutate_none_case m hinv v c ms mc tok cplx v' c' step' h
    | some rpi =>
      unfold RecursiveMutator.ordered_mutate at h
      rcases hrp : m.recursing_part v rpi with ⟨newOpt, rpi2⟩
      rcases newOpt with _ | new <;> rw [hrp] at h
      · exact recursive_ordered_mutate_none_case m hinv v c ms mc tok cplx v' c' step' h
      · replace h :
            (match m.validate_value new with
              | some fresh_cache =>
                Except.ok (some (RecursiveMutatorUnmutateToken.Replace v,
                    m.complexity new fresh_cache), new, c,
                  ({ recursing_part_index := some rpi2, mutation_step := ms } :
                    RecursiveMutatorMutationStep MS RPI))
              | none => Except.error "unwrap") =
            Except.ok (some (tok, cplx), v', c', step') := h
        rcases hval : m.validate_value new with _ | c2 <;> rw [hval] at h <;> simp at h
        obtain ⟨⟨htok, _⟩, hv, hc, _⟩ := h
        subst htok hc
        rfl

/-- **C2.** For the `u8` mutator, starting each call from value 100 (the
previous mutation having been reverted by `unmutate`), with the initial
mutation step 0, the first 8 calls to `ordered_mutate` set the value to
exactly 101, 99, 102, 98, 103, 97, 104, 96, in that order. -/
theorem u8_first_eight_nudges :
    u8NudgeRun 100 0 8 = [101, 99, 102, 98, 103, 97, 104, 96] := by decide

/-- **C4 (amended).** The mutation step advances by exactly one per successful
`ordered_mutate` call, and the unsigned mutators whose exhaustion threshold
`10 + MAX` is below `2^64 - 1` (u8, u16, u32) return `None` on every call
after the first `thr + 1`; but the u64 threshold saturates at `u64::MAX`, so
its check never fires, and the signed mutators have no check at all: u64 and
i8/i16/i32/i64 never return `None`. -/
theorem ordered_mutate_step_exhaustion :
    ∀ (thr W size : Nat) (mc : Rat) (v s n m : Nat),
      (s + n ≤ thr + 1 → thr + 2 ≤ 2 ^ 64 →
        (runMut (ordered_mutate thr W size) mc v s n).all Option.isSome = true)
      ∧ (thr < s → runMut (ordered_mutate thr W size) mc v s m = List.replicate m none)
      ∧ (thr + 2 ≤ 2 ^ 64 →
          runMutState (ordered_mutate thr W size) mc v 0 n = min n (thr + 1))
      ∧ (ordered_mutate_signed W size v s mc).1.isSome = true
      ∧ (s < 2 ^ 64 → (U64Mutator_ordered_mutate v s mc).1.isSome = true)
      ∧ u64_saturating_add 10 (2 ^ 8 - 1) = 265
      ∧ u64_saturating_add 10 (2 ^ 64 - 1) = 2 ^ 64 - 1 := by
  intro thr W size mc v s n m
  refine ⟨fun h1 h2 => runMut_all_isSome n v s h1 h2,
    fun h => runMut_exhausted m v s h,
    fun h2 => by simpa using runMutState_formula n v 0 (by omega) h2,
    by simp [ordered_mutate_signed],
    fun hs => ?_, by decide, by decide⟩
  have hthr : ¬ s > u64_saturating_add 10 (2 ^ 64 - 1) := by
    simp only [u64_saturating_add]
    omega
  show (ordered_mutate (u64_saturating_add 10 (2 ^ 64 - 1)) (2 ^ 64) 64 v s mc).1.isSome = true
  unfold ordered_mutate
  rw [if_neg hthr]
  rfl

/-- **C4 counterexample.** The signed `i8` mutator's `ordered_mutate` has no
exhaustion check: there is no value, step and max_cplx at which it returns
`None`, so no sequence of calls ever reaches the "exhausted" answer the claim
asserts. -/
theorem i8_ordered_mutate_never_none :
    ¬ ∃ (v s : Nat) (mc : Rat), (I8Mutator_ordered_mutate v s mc).1 = none := by
  rintro ⟨v, s, mc, h⟩
  simp [I8Mutator_ordered_mutate, ordered_mutate_signed] at h

/-- **C5 (amended).** The integer mutators ignore `max_cplx` entirely:
`ordered_arbitrary` and `random_arbitrary` return the same result for every
`max_cplx`, every returned value has complexity exactly `8.0` (also when
`max_cplx < 8.0`), and `ordered_arbitrary` returns `None` exactly when the
step is exhausted — never because of the complexity budget. -/
theorem integer_mutators_ignore_max_cplx :
    ∀ (MAX size step r v : Nat) (mc mc2 : Rat),
      ordered_arbitrary MAX size step mc = ordered_arbitrary MAX size step mc2
      ∧ random_arbitrary size r mc = random_arbitrary size r mc2
      ∧ complexity v () = 8 ∧ min_complexity = 8 ∧ max_complexity = 8
      ∧ ((ordered_arbitrary MAX size step mc).1 = none ↔ MAX < step)
      ∧ (∀ w, (ordered_arbitrary MAX size step mc).1 = some w → complexity w () = 8) := by
  intro MAX size step r v mc mc2
  refine ⟨rfl, rfl, rfl, rfl, rfl, ?_, fun w _ => rfl⟩
  by_cases h : step > MAX
  · simp [ordered_arbitrary, h]
  · simp only [ordered_arbitrary, if_neg h]
    simp
    omega

/-- **C5 counterexample.** With `max_cplx = 1/2 < 8.0` and fresh step 0, the
`u8` mutator's `ordered_arbitrary` still returns a value (127), whose
complexity `8.0` exceeds the requested budget. -/
theorem u8_ordered_arbitrary_exceeds_max_cplx :
    U8Mutator_ordered_arbitrary 0 (1 / 2) = (some 127, 1)
    ∧ complexity 127 () = 8
    ∧ ¬ complexity 127 () ≤ 1 / 2 := by
  refine ⟨by decide, rfl, by norm_num [complexity]⟩

/-- **C8.** `AndPool::get_random_index` returns `None` iff both sub-pools
returned `None`; whenever exactly one sub-pool produced an index, that index
is returned (suitably tagged) regardless of the `percent_choose_first` coin. -/
theorem and_pool_get_random_index_spec :
    ∀ (I1 I2 : Type) (percent coin : Nat) (g1 : Option I1) (g2 : Option I2),
      (AndPool.get_random_index percent coin g1 g2 = none ↔ g1 = none ∧ g2 = none)
      ∧ (∀ i1, g1 = some i1 → g2 = none →
          AndPool.get_random_index percent coin g1 g2 = some (Either.Left i1))
      ∧ (∀ i2, g2 = some i2 → g1 = none →
          AndPool.get_random_index percent coin g1 g2 = some (Either.Right i2)) := by
  intro I1 I2 percent coin g1 g2
  unfold AndPool.get_random_index
  rcases g1 with _ | i1 <;> rcases g2 with _ | i2 <;> by_cases h : coin < percent <;>
    simp [h]

/-- **C10.** When `RecursiveMutator::ordered_mutate` or `random_mutate`
performs the replace-whole-by-recursing-subpart move, the caller's cache is
returned unchanged, the value is replaced by the (clone of the) subpart, the
returned complexity comes from the freshly computed cache — which is
discarded, not stored — and `unmutate` on a `Replace` token restores only the
value, leaving the cache untouched. -/
theorem recursive_replace_frame :
    ∀ (T C MS AS RPI UT F : Type) (m : Mutator T C MS AS RPI UT F)
      (v new x : T) (c c2 : C) (step : RecursiveMutatorMutationStep MS RPI)
      (mc : F) (rpi rpi' : RPI) (coin : Nat),
      (step.recursing_part_index = some rpi →
        m.recursing_part v rpi = (some new, rpi') →
        m.validate_value new = some c2 →
        RecursiveMutator.ordered_mutate m v c step mc =
          .ok (some (RecursiveMutatorUnmutateToken.Replace v, m.complexity new c2), new, c,
            { recursing_part_index := some rpi', mutation_step := step.mutation_step }))
      ∧ (coin = 0 →
          m.recursing_part v (m.default_recursing_part_index v c) = (some new, rpi') →
          m.validate_value new = some c2 →
          RecursiveMutator.random_mutate m coin v c mc =
            .ok ((RecursiveMutatorUnmutateToken.Replace v, m.complexity new c2), new, c))
      ∧ RecursiveMutator.unmutate m v c (RecursiveMutatorUnmutateToken.Replace x) = (x, c) := by
  intro T C MS AS RPI UT F m v new x c c2 step mc rpi rpi' coin
  refine ⟨?_, ?_, rfl⟩
  · intro h1 h2 h3
    obtain ⟨rpiOpt, ms⟩ := step
    simp only at h1
    subst h1
    unfold RecursiveMutator.ordered_mutate
    simp [h2, h3]
  · intro h1 h2 h3
    subst h1
    unfold RecursiveMutator.random_mutate
    rw [if_pos rfl]
    simp [h2, h3]

/-- **C6 counterexample.** `RecurToMutator::default_mutation_step` calls
`self.reference.upgrade().unwrap()`: when the weak back-reference cannot be
upgraded (the `RecursiveMutator` is gone), it panics instead of returning
normally — here at the concrete instantiation `T = C = ... = Nat`, value `0`,
cache `0`. -/
theorem recur_to_dead_reference_panics :
    RecurToMutator.default_mutation_step
        (none : Option (Mutator Nat Nat Nat Nat Nat Nat Rat)) 0 0 =
      Except.error "unwrap" := rfl

/-- **C6 (amended).** Every operation of `RecurToMutator` returns normally
whenever the weak back-reference upgrades; when it cannot be upgraded,
`min_complexity` (which returns the hard-coded `1.0`) and
`default_arbitrary_step` (which never consults the reference) are still total,
but `default_mutation_step`, `complexity`, `ordered_arbitrary`,
`random_arbitrary`, `ordered_mutate`, `random_mutate` and `unmutate` (and
`validate_value`) all panic on the `unwrap` of the dead reference.
`RecursiveMutator::ordered_mutate` returns normally provided `validate_value`
succeeds on every recursing subpart it clones (it `unwrap`s that validation). -/
theorem recur_to_mutator_totality :
    ∀ (T C MS AS RPI UT F : Type) (_inst : One F) (m : Mutator T C MS AS RPI UT F)
      (v : T) (c : C) (ms : MS) (as0 : RecursingArbitraryStep AS) (t : UT) (mc : F),
      ((RecurToMutator.validate_value (some m) v).isOk = true
        ∧ (RecurToMutator.default_mutation_step (some m) v c).isOk = true
        ∧ (RecurToMutator.complexity (some m) v c).isOk = true
        ∧ (RecurToMutator.ordered_arbitrary (some m) as0 mc).isOk = true
        ∧ (RecurToMutator.random_arbitrary (some m) mc).isOk = true
        ∧ (RecurToMutator.ordered_mutate (some m) v c ms mc).isOk = true
        ∧ (RecurToMutator.random_mutate (some m) v c mc).isOk = true
        ∧ (RecurToMutator.unmutate (some m) v c t).isOk = true)
      ∧ RecurToMutator.ordered_mutate (some m) v c ms mc = .ok (m.ordered_mutate v c ms mc)
      ∧ RecurToMutator.unmutate (some m) v c t = .ok (m.unmutate v c t)
      ∧ (RecurToMutator.default_mutation_step (none : Option (Mutator T C MS AS RPI UT F)) v c
            = .error "unwrap"
        ∧ RecurToMutator.complexity (none : Option (Mutator T C MS AS RPI UT F)) v c
            = .error "unwrap"
        ∧ RecurToMutator.ordered_arbitrary (none : Option (Mutator T C MS AS RPI UT F)) as0 mc
            = .error "unwrap"
        ∧ RecurToMutator.random_arbitrary (none : Option (Mutator T C MS AS RPI UT F)) mc
            = .error "unwrap"
        ∧ RecurToMutator.ordered_mutate (none : Option (Mutator T C MS AS RPI UT F)) v c ms mc
            = .error "unwrap"
        ∧ RecurToMutator.random_mutate (none : Option (Mutator T C MS AS RPI UT F)) v c mc
            = .error "unwrap"
        ∧ RecurToMutator.unmutate (none : Option (Mutator T C MS AS RPI UT F)) v c t
            = .error "unwrap")
      ∧ RecurToMutator.min_complexity (none : Option (Mutator T C MS AS RPI UT F)) = (1 : F)
      ∧ RecurToMutator.default_arbitrary_step (none : Option (Mutator T C MS AS RPI UT F))
          = RecursingArbitraryStep.Default
      ∧ (∀ (m2 : Mutator T C MS AS RPI UT F) (step : RecursiveMutatorMutationStep MS RPI),
          (∀ rpi new rpi', m2.recursing_part v rpi = (some new, rpi') →
            (m2.validate_value new).isSome = true) →
          (RecursiveMutator.ordered_mutate m2 v c step mc).isOk = true) := by
  intro T C MS AS RPI UT F _inst m v c ms as0 t mc
  refine ⟨⟨rfl, rfl, rfl, ?_, rfl, rfl, rfl, rfl⟩, rfl, rfl,
    ⟨rfl, rfl, ?_, rfl, rfl, rfl, rfl⟩, rfl, rfl, ?_⟩
  · cases as0 <;> simp [RecurToMutator.ordered_arbitrary, Except.isOk, Except.toBool]
  · cases as0 <;> simp [RecurToMutator.ordered_arbitrary]
  · intro m2 step hval
    obtain ⟨rpiOpt, ms2⟩ := step
    have inner : ∀ ms3 : MS,
        (RecursiveMutator.ordered_mutate m2 v c
          { recursing_part_index := none, mutation_step := ms3 } mc).isOk = true := by
      intro ms3
      unfold RecursiveMutator.ordered_mutate
      rcases m2.ordered_mutate v c ms3 mc with ⟨topt, v2, c2, ms4⟩
      rcases topt with _ | ⟨t2, cp2⟩ <;> rfl
    cases rpiOpt with
    | none => exact inner ms2
    | some rpi =>
      unfold RecursiveMutator.ordered_mutate
      rcases hrp : m2.recursing_part v rpi with ⟨newOpt, rpi2⟩
      rcases newOpt with _ | new
      · exact inner ms2
      · have hsome := hval rpi new rpi2 hrp
        rcases hv : m2.validate_value new with _ | c2
        · rw [hv] at hsome; simp at hsome
        · simp only [hv]
          rfl

/-- **C7.** `AndPool::process` runs `p1` before `p2`; each sub-pool receives
its matching view of the input (an own-pool index is passed through unchanged,
an other-pool index is dereferenced through the other pool's `get`, a borrowed
value is passed as-is); every delta emitted by `p1` reaches the event handler
with its indices wrapped in `Left`, every delta emitted by `p2` with its
indices wrapped in `Right`, in emission order (`p1`'s events first, and `p2`
processes against the state `p1.process` left behind). -/
theorem and_pool_process_views :
    ∀ (St1 St2 Sen1 Sen2 TC I1 I2 S1 S2 : Type)
      (P1 : Pool St1 Sen1 TC I1 S1) (P2 : Pool St2 Sen2 TC I2 S2)
      (p1 : St1) (p2 : St2) (sen1 : Sen1) (sen2 : Sen2)
      (clone_input : TC → TC) (cplx : Rat) (i1 : I1) (i2 : I2) (tc : TC)
      (d1 : CorpusDelta TC I1) (d2 : CorpusDelta TC I2),
      (AndPool.process P1 P2 p1 p2 sen1 sen2 (Either.Left (Either.Left i1)) clone_input cplx =
        (let r1 := P1.process p1 sen1 (Either.Left i1) clone_input cplx
         let r2 := P2.process p2 sen2 (Either.Right (P1.get r1.2 i1)) clone_input cplx
         (r1.1.map (fun ds => (lift_corpus_delta_1 ds.1, AndStats.mk ds.2 (P2.stats p2))) ++
            r2.1.map (fun ds => (lift_corpus_delta_2 ds.1, AndStats.mk (P1.stats r1.2) ds.2)),
          r1.2, r2.2)))
      ∧ (AndPool.process P1 P2 p1 p2 sen1 sen2 (Either.Left (Either.Right i2)) clone_input cplx =
        (let r1 := P1.process p1 sen1 (Either.Right (P2.get p2 i2)) clone_input cplx
         let r2 := P2.process p2 sen2 (Either.Left i2) clone_input cplx
         (r1.1.map (fun ds => (lift_corpus_delta_1 ds.1, AndStats.mk ds.2 (P2.stats p2))) ++
            r2.1.map (fun ds => (lift_corpus_delta_2 ds.1, AndStats.mk (P1.stats r1.2) ds.2)),
          r1.2, r2.2)))
      ∧ (AndPool.process P1 P2 p1 p2 sen1 sen2 (Either.Right tc) clone_input cplx =
        (let r1 := P1.process p1 sen1 (Either.Right tc) clone_input cplx
         let r2 := P2.process p2 sen2 (Either.Right tc) clone_input cplx
         (r1.1.map (fun ds => (lift_corpus_delta_1 ds.1, AndStats.mk ds.2 (P2.stats p2))) ++
            r2.1.map (fun ds => (lift_corpus_delta_2 ds.1, AndStats.mk (P1.stats r1.2) ds.2)),
          r1.2, r2.2)))
      ∧ (lift_corpus_delta_1 d1 : CorpusDelta TC (Either I1 I2)) =
          { path := d1.path,
            add := d1.add.map (fun ci => (ci.1, Either.Left ci.2)),
            remove := d1.remove.map Either.Left }
      ∧ (lift_corpus_delta_2 d2 : CorpusDelta TC (Either I1 I2)) =
          { path := d2.path,
            add := d2.add.map (fun ci => (ci.1, Either.Right ci.2)),
            remove := d2.remove.map Either.Right } := by
  intro St1 St2 Sen1 Sen2 TC I1 I2 S1 S2 P1 P2 p1 p2 sen1 sen2 clone_input cplx i1 i2 tc d1 d2
  exact ⟨rfl, rfl, rfl, rfl, rfl⟩

/-! ### `min_by` and `simplest_input_file` -/

theorem min_by_foldl_isSome {α : Type} (cmp : α → α → Ordering) :
    ∀ (l : List α) (a0 : α),
      (List.foldl
        (fun acc y =>
          match acc with
          | none => some y
          | some x => if cmp y x = Ordering.lt then some y else some x)
        (some a0) l).isSome = true := by
  intro l
  induction l with
  | nil => intro a0; rfl
  | cons b t ih =>
    intro a0
    simp only [List.foldl_cons]
    by_cases h : cmp b a0 = Ordering.lt <;> simp only [h, if_true, if_false, ite_true,
      ite_false, if_pos, if_neg] <;> apply ih

theorem min_by_none_iff {α : Type} (cmp : α → α → Ordering) (l : List α) :
    min_by cmp l = none ↔ l = [] := by
  cases l with
  | nil => simp [min_by]
  | cons a t =>
    simp only [min_by, List.foldl_cons]
    constructor
    · intro h
      have := min_by_foldl_isSome cmp t a
      rw [h] at this
      simp at this
    · intro h
      simp at h

theorem min_by_foldl_spec {α F : Type} [LinearOrder F] (key : α → F)
    (cmp : α → α → Ordering) (hcmp : ∀ a b, cmp a b = Ordering.lt ↔ key a < key b) :
    ∀ (l : List α) (a0 x : α),
      List.foldl
        (fun acc y =>
          match acc with
          | none => some y
          | some x => if cmp y x = Ordering.lt then some y else some x)
        (some a0) l = some x →
      (x = a0 ∨ x ∈ l) ∧ key x ≤ key a0 ∧ ∀ y ∈ l, key x ≤ key y := by
  intro l
  induction l with
  | nil =>
    intro a0 x h
    simp only [List.foldl_nil, Option.some.injEq] at h
    subst h
    simp
  | cons b t ih =>
    intro a0 x h
    simp only [List.foldl_cons] at h
    by_cases hb : cmp b a0 = Ordering.lt
    · rw [if_pos hb] at h
      obtain ⟨hmem, hle, hall⟩ := ih b x h
      have hba : key b < key a0 := (hcmp b a0).1 hb
      refine ⟨?_, le_trans hle (le_of_lt hba), ?_⟩
      · rcases hmem with h1 | h1
        · exact Or.inr (by simp [h1])
        · exact Or.inr (by simp [h1])
      · intro y hy
        rcases List.mem_cons.1 hy with h1 | h1
        · exact h1 ▸ hle
        · exact hall y h1
    · rw [if_neg hb] at h
      obtain ⟨hmem, hle, hall⟩ := ih a0 x h
      have hba : key a0 ≤ key b := le_of_not_lt (fun hlt => hb ((hcmp b a0).2 hlt))
      refine ⟨?_, hle, ?_⟩
      · rcases hmem with h1 | h1
        · exact Or.inl h1
        · exact Or.inr (by simp [h1])
      · intro y hy
        rcases List.mem_cons.1 hy with h1 | h1
        · exact h1 ▸ le_trans hle hba
        · exact hall y h1

theorem min_by_spec {α F : Type} [LinearOrder F] (key : α → F)
    (cmp : α → α → Ordering) (hcmp : ∀ a b, cmp a b = Ordering.lt ↔ key a < key b)
    (l : List α) (x : α) (h : min_by cmp l = some x) :
    x ∈ l ∧ ∀ y ∈ l, key x ≤ key y := by
  cases l with
  | nil => simp [min_by] at h
  | cons a t =>
    simp only [min_by, List.foldl_cons] at h
    obtain ⟨hmem, hle, hall⟩ := min_by_foldl_spec key cmp hcmp t a x h
    refine ⟨?_, ?_⟩
    · rcases hmem with h1 | h1
      · simp [h1]
      · simp [h1]
    · intro y hy
      rcases List.mem_cons.1 hy with h1 | h1
      · exact h1 ▸ hle
      · exact hall y h1

/-- **C9.** `simplest_input_file` returns `None` exactly when no directory
entry qualifies (a qualifying entry has a stem that splits in two at the
first `"--"` and a prefix that parses), and otherwise returns the path of a
qualifying file whose parsed numeric prefix is minimal among all qualifying
files. Comparison of parsed complexities is `partial_cmp … unwrap_or(Equal)`;
the theorem instantiates it with the total `compare` of a linear order (the
behaviour of `f64` `partial_cmp` on non-NaN values). -/
theorem simplest_input_file_min :
    ∀ (P F : Type) (_inst : LinearOrder F) (parse : String → Option F)
      (entries : List (P × Option String)),
      (simplest_input_file (fun a b => some (compare a b)) parse entries = none ↔
        files_with_complexity parse entries = [])
      ∧ (∀ p, simplest_input_file (fun a b => some (compare a b)) parse entries = some p →
          ∃ cplx, (p, cplx) ∈ files_with_complexity parse entries ∧
            ∀ q ∈ files_with_complexity parse entries, cplx ≤ q.2) := by
  intro P F _inst parse entries
  constructor
  · unfold simplest_input_file
    rw [Option.map_eq_none']
    exact min_by_none_iff _ _
  · intro p hp
    unfold simplest_input_file at hp
    rw [Option.map_eq_some'] at hp
    obtain ⟨x, hx, hx1⟩ := hp
    have hcmp : ∀ a b : P × F,
        ((fun a b => some (compare a b)) a.2 b.2).getD Ordering.eq = Ordering.lt ↔
          a.2 < b.2 := by
      intro a b
      simp [compare_lt_iff_lt]
    obtain ⟨hmem, hall⟩ := min_by_spec (fun q => q.2) _ hcmp _ x hx
    refine ⟨x.2, ?_, hall⟩
    rw [← hx1]
    exact hmem

/-! ### `uniform_permutation` permutes the integer range (C3) -/

set_option maxRecDepth 4000 in
theorem shuffled_integers_lt : ∀ i < 256, shuffled_integers i < 256 := by decide

set_option maxRecDepth 10000 in
theorem shuffled_integers_nodup : ((List.range 256).map shuffled_integers).Nodup := by decide

theorem shuffled_integers_inj {i j : Nat} (hi : i < 256) (hj : j < 256)
    (h : shuffled_integers i = shuffled_integers j) : i = j :=
  List.inj_on_of_nodup_map shuffled_integers_nodup
    (List.mem_range.2 hi) (List.mem_range.2 hj) h

theorem and255 (x : Nat) : x &&& 255 = x % 256 := by
  have h := Nat.and_pow_two_sub_one_eq_mod x 8
  norm_num at h
  exact h

theorem lor_shiftLeft (x y d : Nat) : (x ||| y) <<< d = x <<< d ||| y <<< d := by
  apply Nat.eq_of_testBit_eq
  intro j
  simp [Nat.testBit_shiftLeft, Nat.testBit_or, Bool.and_or_distrib_left]

theorem shiftLeft8_lor_eq_add (A b : Nat) (hb : b < 256) : (A <<< 8) ||| b = A * 256 + b := by
  have hb' : b < 2 ^ 8 := by omega
  calc (A <<< 8) ||| b = (2 ^ 8 * A) ||| b := by rw [Nat.shiftLeft_eq, Nat.mul_comm]
    _ = 2 ^ 8 * A + b := (Nat.mul_add_lt_is_or hb' A).symm
    _ = A * 256 + b := by ring

theorem upByte_lt (step i : Nat) : upByte step i < 256 := by
  cases i <;> exact shuffled_integers_lt _ (Nat.mod_lt _ (by norm_num))

theorem upAssemble_lt (step : Nat) : ∀ n, upAssemble step n < 256 ^ n := by
  intro n
  induction n with
  | zero => simp [upAssemble]
  | succ n ih =>
    have h1 := upByte_lt step n
    have h2 : (256:Nat) ^ (n + 1) = 256 ^ n * 256 := pow_succ 256 n
    simp only [upAssemble]
    omega

theorem xor_mod256 (x p : Nat) (hp : p < 256) : (x ^^^ p) % 256 = (x % 256) ^^^ p := by
  have h1 : (x ^^^ p) &&& 255 = (x &&& 255) ^^^ (p &&& 255) := Nat.and_xor_distrib_right
  rw [and255, and255, and255] at h1
  rw [h1, Nat.mod_eq_of_lt hp]

theorem upByte_congr : ∀ (i step step' : Nat),
    step % 256 ^ (i + 1) = step' % 256 ^ (i + 1) → upByte step i = upByte step' i := by
  intro i
  induction i with
  | zero =>
    intro step step' h
    norm_num at h
    simp only [upByte, h]
  | succ i ih =>
    intro step step' h
    have hd : (256:Nat) ^ (i + 1) ∣ 256 ^ (i + 2) := pow_dvd_pow _ (by omega)
    have hmod : step % 256 ^ (i + 1) = step' % 256 ^ (i + 1) := by
      calc step % 256 ^ (i + 1) = step % 256 ^ (i + 2) % 256 ^ (i + 1) :=
            (Nat.mod_mod_of_dvd _ hd).symm
        _ = step' % 256 ^ (i + 2) % 256 ^ (i + 1) := by rw [h]
        _ = step' % 256 ^ (i + 1) := Nat.mod_mod_of_dvd _ hd
    have hb := ih step step' hmod
    have hsh : step >>> (8 * (i + 1)) % 256 = step' >>> (8 * (i + 1)) % 256 := by
      rw [Nat.shiftRight_eq_div_pow, Nat.shiftRight_eq_div_pow]
      have hpow : (2:Nat) ^ (8 * (i + 1)) = 256 ^ (i + 1) := by
        rw [pow_mul]
        norm_num
      rw [hpow,
        ← Nat.mod_mul_right_div_self step (256 ^ (i + 1)) 256,
        ← Nat.mod_mul_right_div_self step' (256 ^ (i + 1)) 256,
        ← pow_succ, h]
    simp only [upByte, hb]
    rw [xor_mod256 _ _ (upByte_lt step' i), xor_mod256 _ _ (upByte_lt step' i), hsh]

theorem nat_xor_right_cancel {a b p : Nat} (h : a ^^^ p = b ^^^ p) : a = b := by
  have := congrArg (fun z => z ^^^ p) h
  simpa [Nat.xor_assoc] using this

theorem upAssemble_mod_inj : ∀ (n step step' : Nat),
    upAssemble step n = upAssemble step' n → step % 256 ^ n = step' % 256 ^ n := by
  intro n
  induction n with
  | zero => intro step step' _; simp [Nat.mod_one]
  | succ n ih =>
    intro step step' h
    simp only [upAssemble] at h
    have hb := upByte_lt step n
    have hb' := upByte_lt step' n
    have h1 : upAssemble step n = upAssemble step' n := by omega
    have h2 : upByte step n = upByte step' n := by omega
    have hmod := ih step step' h1
    have hdig : step / 256 ^ n % 256 = step' / 256 ^ n % 256 := by
      cases n with
      | zero =>
        simp only [upByte] at h2
        have := shuffled_integers_inj (Nat.mod_lt _ (by norm_num))
          (Nat.mod_lt _ (by norm_num)) h2
        simpa using this
      | succ m =>
        have hbm : upByte step m = upByte step' m := upByte_congr m step step' hmod
        simp only [upByte, hbm] at h2
        have harg := shuffled_integers_inj (Nat.mod_lt _ (by norm_num))
          (Nat.mod_lt _ (by norm_num)) h2
        rw [xor_mod256 _ _ (upByte_lt step' m), xor_mod256 _ _ (upByte_lt step' m)] at harg
        have hx := nat_xor_right_cancel harg
        rw [Nat.shiftRight_eq_div_pow, Nat.shiftRight_eq_div_pow] at hx
        have hpow : (2:Nat) ^ (8 * (m + 1)) = 256 ^ (m + 1) := by
          rw [pow_mul]
          norm_num
        rwa [hpow] at hx
    have hfin : step % (256 ^ n * 256) = step' % (256 ^ n * 256) := by
      rw [Nat.mod_mul, Nat.mod_mul, hmod, hdig]
    rwa [← pow_succ] at hfin

theorem uniform_permutation_foldl_invariant (step n : Nat) (hn : 1 ≤ n) :
    ∀ k, k ≤ n - 1 →
      (List.range' 1 k).foldl
        (fun (acc : Nat × Nat) i =>
          (acc.1 ||| shuffled_integers (((step >>> (i * 8)) ^^^ acc.2) &&& 255)
              <<< (8 * n - (i + 1) * 8),
            shuffled_integers (((step >>> (i * 8)) ^^^ acc.2) &&& 255)))
        (shuffled_integers (step &&& 255) <<< (8 * n - 8), shuffled_integers (step &&& 255)) =
      (upAssemble step (k + 1) <<< (8 * n - 8 * (k + 1)), upByte step k) := by
  intro k
  induction k with
  | zero =>
    intro _
    simp [List.range', upAssemble, upByte, and255]
  | succ k ih =>
    intro hk
    rw [List.range'_concat, List.foldl_append, ih (by omega)]
    have hik : 1 + 1 * k = k + 1 := by omega
    rw [hik]
    simp only [List.foldl_cons, List.foldl_nil]
    have hbyte : shuffled_integers (((step >>> ((k + 1) * 8)) ^^^ upByte step k) &&& 255) =
        upByte step (k + 1) := by
      simp only [upByte, and255]
      rw [Nat.mul_comm (k + 1) 8]
    rw [hbyte]
    have hd8 : 8 * n - 8 * (k + 1) = (8 * n - 8 * (k + 2)) + 8 := by omega
    have hpos : 8 * n - (k + 1 + 1) * 8 = 8 * n - 8 * (k + 2) := by
      have : (k + 1 + 1) * 8 = 8 * (k + 2) := by ring
      rw [this]
    rw [hd8, hpos]
    have hshift : upAssemble step (k + 1) <<< (8 * n - 8 * (k + 2) + 8) |||
        upByte step (k + 1) <<< (8 * n - 8 * (k + 2)) =
        upAssemble step (k + 2) <<< (8 * n - 8 * (k + 2)) := by
      calc upAssemble step (k + 1) <<< (8 * n - 8 * (k + 2) + 8) |||
            upByte step (k + 1) <<< (8 * n - 8 * (k + 2))
          = (upAssemble step (k + 1) <<< 8) <<< (8 * n - 8 * (k + 2)) |||
              upByte step (k + 1) <<< (8 * n - 8 * (k + 2)) := by
            rw [Nat.shiftLeft_shiftLeft, Nat.add_comm 8 (8 * n - 8 * (k + 2))]
        _ = ((upAssemble step (k + 1) <<< 8) ||| upByte step (k + 1)) <<<
              (8 * n - 8 * (k + 2)) := (lor_shiftLeft _ _ _).symm
        _ = (upAssemble step (k + 1) * 256 + upByte step (k + 1)) <<<
              (8 * n - 8 * (k + 2)) := by
            rw [shiftLeft8_lor_eq_add _ _ (upByte_lt step (k + 1))]
        _ = upAssemble step (k + 2) <<< (8 * n - 8 * (k + 2)) := rfl
    rw [hshift]

theorem uniform_permutation_eq_upAssemble (n : Nat) (hn : 1 ≤ n) (step : Nat) :
    uniform_permutation (8 * n) step = upAssemble step n := by
  have hinv := uniform_permutation_foldl_invariant step n hn (n - 1) (le_refl _)
  have h8n : 8 * n / 8 = n := by omega
  show ((List.range' 1 (8 * n / 8 - 1)).foldl
      (fun (acc : Nat × Nat) i =>
        (acc.1 ||| shuffled_integers (((step >>> (i * 8)) ^^^ acc.2) &&& 255)
            <<< (8 * n - (i + 1) * 8),
          shuffled_integers (((step >>> (i * 8)) ^^^ acc.2) &&& 255)))
      (shuffled_integers (step &&& 255) <<< (8 * n - 8),
        shuffled_integers (step &&& 255))).1 = upAssemble step n
  rw [h8n, hinv]
  have hone : n - 1 + 1 = n := by omega
  rw [hone, Nat.sub_self, Nat.shiftLeft_zero]

theorem uniform_permutation_lt (n : Nat) (hn : 1 ≤ n) (s : Nat) :
    uniform_permutation (8 * n) s < 2 ^ (8 * n) := by
  rw [uniform_permutation_eq_upAssemble n hn]
  have h1 := upAssemble_lt s n
  have hpow : (2:Nat) ^ (8 * n) = 256 ^ n := by
    rw [pow_mul]
    norm_num
  omega

theorem uniform_permutation_inj (n : Nat) (hn : 1 ≤ n) {s s' : Nat}
    (hs : s < 2 ^ (8 * n)) (hs' : s' < 2 ^ (8 * n))
    (h : uniform_permutation (8 * n) s = uniform_permutation (8 * n) s') : s = s' := by
  have hpow : (2:Nat) ^ (8 * n) = 256 ^ n := by
    rw [pow_mul]
    norm_num
  rw [uniform_permutation_eq_upAssemble n hn, uniform_permutation_eq_upAssemble n hn] at h
  have hm := upAssemble_mod_inj n s s' h
  rwa [Nat.mod_eq_of_lt (by omega), Nat.mod_eq_of_lt (by omega)] at hm

theorem uniform_permutation_perm (n : Nat) (hn : 1 ≤ n) :
    ((List.range (2 ^ (8 * n))).map (uniform_permutation (8 * n))).Perm
      (List.range (2 ^ (8 * n))) := by
  have hnodup : ((List.range (2 ^ (8 * n))).map (uniform_permutation (8 * n))).Nodup := by
    refine List.Nodup.map_on ?_ (List.nodup_range _)
    intro x hx y hy hxy
    exact uniform_permutation_inj n hn (List.mem_range.1 hx) (List.mem_range.1 hy) hxy
  refine List.perm_of_nodup_nodup_toFinset_eq hnodup (List.nodup_range _) ?_
  refine Finset.eq_of_subset_of_card_le ?_ ?_
  · intro x hx
    simp only [List.mem_toFinset, List.mem_map] at hx ⊢
    obtain ⟨k, _, rfl⟩ := hx
    exact List.mem_range.2 (uniform_permutation_lt n hn k)
  · rw [List.toFinset_card_of_nodup hnodup, List.toFinset_card_of_nodup (List.nodup_range _)]
    simp

theorem runArb_none {MAX size : Nat} {mc : Rat} :
    ∀ (n s : Nat), MAX < s →
      runArb (ordered_arbitrary MAX size) mc s n = List.replicate n none := by
  intro n
  induction n with
  | zero => intro s _; rfl
  | succ n ih =>
    intro s h
    simp [runArb, ordered_arbitrary, h, List.replicate, ih s h]

theorem runArb_map_range {MAX size : Nat} {mc : Rat} (hM : MAX + 1 ≤ 2 ^ 64) :
    ∀ (n s : Nat), s + n ≤ MAX + 1 →
      runArb (ordered_arbitrary MAX size) mc s n =
        (List.range' s n).map (fun k => some (uniform_permutation size k)) := by
  intro n
  induction n with
  | zero => intro s _; rfl
  | succ n ih =>
    intro s hs
    have hsM : ¬ s > MAX := by omega
    simp only [runArb, ordered_arbitrary, if_neg hsM, List.range'_succ, List.map_cons,
      List.cons.injEq, true_and]
    refine ?_
    cases n with
    | zero => rfl
    | succ n2 =>
      have hw : (s + 1) % 2 ^ 64 = s + 1 := Nat.mod_eq_of_lt (by omega)
      rw [hw]
      exact ih (s + 1) (by omega)

theorem runArbState_formula {MAX size : Nat} {mc : Rat} (hM : MAX + 1 ≤ 2 ^ 64) :
    ∀ (n s : Nat), s + n ≤ MAX + 1 → s < 2 ^ 64 →
      runArbState (ordered_arbitrary MAX size) mc s n = (s + n) % 2 ^ 64 := by
  intro n
  induction n with
  | zero => intro s _ hlt; simpa [runArbState] using (Nat.mod_eq_of_lt hlt).symm
  | succ n ih =>
    intro s hs hlt
    have hsM : ¬ s > MAX := by omega
    simp only [runArbState, ordered_arbitrary, if_neg hsM]
    by_cases h64 : s + 1 < 2 ^ 64
    · rw [Nat.mod_eq_of_lt h64, ih (s + 1) (by omega) h64]
      congr 1
      omega
    · have hn0 : n = 0 := by omega
      subst hn0
      show (s + 1) % 2 ^ 64 = (s + 1) % 2 ^ 64
      rfl

theorem runArb_add (f : Nat → Rat → Option Nat × Nat) (mc : Rat) :
    ∀ (a b s : Nat),
      runArb f mc s (a + b) =
        runArb f mc s a ++ runArb f mc (runArbState f mc s a) b := by
  intro a
  induction a with
  | zero => intro b s; simp only [Nat.zero_add]; rfl
  | succ a ih =>
    intro b s
    have h1 : a + 1 + b = (a + b) + 1 := by omega
    rw [h1]
    simp only [runArb, runArbState, List.cons_append]
    rw [ih]

/-- **C3 (amended).** Starting from the initial arbitrary step 0, the u8, u16
and u32 mutators' `ordered_arbitrary` produces every value of the numeric
range exactly once (the produced list is a permutation of the range) and
thereafter returns `None` on every call. The u64 mutator also produces every
value of its range exactly once over its first `2^64` calls, but its
exhaustion check `step > u64::MAX` can never fire: after the last value the
step counter wraps around (to 0 in release builds; debug builds panic on the
overflow of `*step += 1`), and every call returns `Some` again instead of
`None`. -/
theorem unsigned_ordered_arbitrary_permutation :
    ∀ (mc : Rat) (m : Nat),
      (runArb (ordered_arbitrary (2 ^ 8 - 1) 8) mc 0 (2 ^ 8 + m) =
          (List.range (2 ^ 8)).map (fun k => some (uniform_permutation 8 k)) ++
            List.replicate m none)
      ∧ ((List.range (2 ^ 8)).map (uniform_permutation 8)).Perm (List.range (2 ^ 8))
      ∧ (runArb (ordered_arbitrary (2 ^ 16 - 1) 16) mc 0 (2 ^ 16 + m) =
          (List.range (2 ^ 16)).map (fun k => some (uniform_permutation 16 k)) ++
            List.replicate m none)
      ∧ ((List.range (2 ^ 16)).map (uniform_permutation 16)).Perm (List.range (2 ^ 16))
      ∧ (runArb (ordered_arbitrary (2 ^ 32 - 1) 32) mc 0 (2 ^ 32 + m) =
          (List.range (2 ^ 32)).map (fun k => some (uniform_permutation 32 k)) ++
            List.replicate m none)
      ∧ ((List.range (2 ^ 32)).map (uniform_permutation 32)).Perm (List.range (2 ^ 32))
      ∧ (runArb (ordered_arbitrary (2 ^ 64 - 1) 64) mc 0 (2 ^ 64) =
          (List.range (2 ^ 64)).map (fun k => some (uniform_permutation 64 k)))
      ∧ ((List.range (2 ^ 64)).map (uniform_permutation 64)).Perm (List.range (2 ^ 64))
      ∧ runArbState (ordered_arbitrary (2 ^ 64 - 1) 64) mc 0 (2 ^ 64) = 0
      ∧ (∀ s, s < 2 ^ 64 → (ordered_arbitrary (2 ^ 64 - 1) 64 s mc).1.isSome = true) := by
  intro mc m
  have full : ∀ (MAX size : Nat), MAX + 1 ≤ 2 ^ 64 →
      runArb (ordered_arbitrary MAX size) mc 0 (MAX + 1 + m) =
        (List.range (MAX + 1)).map (fun k => some (uniform_permutation size k)) ++
          runArb (ordered_arbitrary MAX size) mc
            (runArbState (ordered_arbitrary MAX size) mc 0 (MAX + 1)) m := by
    intro MAX size hM
    rw [runArb_add, runArb_map_range hM (MAX + 1) 0 (by omega), List.range_eq_range']
  refine ⟨?_, by exact uniform_permutation_perm 1 (by norm_num), ?_,
    by exact uniform_permutation_perm 2 (by norm_num), ?_,
    by exact uniform_permutation_perm 4 (by norm_num), ?_,
    by exact uniform_permutation_perm 8 (by norm_num), ?_, ?_⟩
  · have h := full (2 ^ 8 - 1) 8 (by norm_num)
    have hstate : runArbState (ordered_arbitrary (2 ^ 8 - 1) 8) mc 0 (2 ^ 8 - 1 + 1) =
        2 ^ 8 := by
      rw [runArbState_formula (by norm_num) _ 0 (by omega) (by norm_num)]
      norm_num
    rw [hstate] at h
    rw [runArb_none m (2 ^ 8) (by norm_num)] at h
    have he : (2:Nat) ^ 8 - 1 + 1 = 2 ^ 8 := by norm_num
    rw [he] at h
    exact h
  · have h := full (2 ^ 16 - 1) 16 (by norm_num)
    have hstate : runArbState (ordered_arbitrary (2 ^ 16 - 1) 16) mc 0 (2 ^ 16 - 1 + 1) =
        2 ^ 16 := by
      rw [runArbState_formula (by norm_num) _ 0 (by omega) (by norm_num)]
      norm_num
    rw [hstate] at h
    rw [runArb_none m (2 ^ 16) (by norm_num)] at h
    have he : (2:Nat) ^ 16 - 1 + 1 = 2 ^ 16 := by norm_num
    rw [he] at h
    exact h
  · have h := full (2 ^ 32 - 1) 32 (by norm_num)
    have hstate : runArbState (ordered_arbitrary (2 ^ 32 - 1) 32) mc 0 (2 ^ 32 - 1 + 1) =
        2 ^ 32 := by
      rw [runArbState_formula (by norm_num) _ 0 (by omega) (by norm_num)]
      norm_num
    rw [hstate] at h
    rw [runArb_none m (2 ^ 32) (by norm_num)] at h
    have he : (2:Nat) ^ 32 - 1 + 1 = 2 ^ 32 := by norm_num
    rw [he] at h
    exact h
  · have h := @runArb_map_range (2 ^ 64 - 1) 64 mc (by norm_num) (2 ^ 64) 0 (by norm_num)
    rw [h, List.range_eq_range']
  · rw [runArbState_formula (by norm_num) _ 0 (by norm_num) (by norm_num)]
    norm_num
  · intro s hs
    have hsM : ¬ s > 2 ^ 64 - 1 := by omega
    unfold ordered_arbitrary
    rw [if_neg hsM]
    rfl

/-- **C3 counterexample.** For the u64 mutator, the exhaustion check can never
fire: after the `2^64` calls that produce the full permutation of the range,
the step counter has wrapped to 0, and the next call still returns `Some`
(here with `max_cplx = 8`) — `ordered_arbitrary` never settles into returning
`None` as the claim asserts. -/
theorem u64_ordered_arbitrary_never_none :
    runArbState (ordered_arbitrary (2 ^ 64 - 1) 64) 8 0 (2 ^ 64) = 0
    ∧ (ordered_arbitrary (2 ^ 64 - 1) 64 0 8).1.isSome = true := by
  constructor
  · rw [runArbState_formula (by norm_num) _ 0 (by norm_num) (by norm_num)]
    norm_num
  · rfl
